import Mathlib

/-!
Verification of the job-alert pipeline (HTML job extractor, history-based
dedup/filter, stage-A requirement extraction, stage-B deep matching).

The Python sources are shallowly embedded: every function below is a direct
translation of the corresponding method in `src/nodes/*.py`.  Strings are
manipulated through their character lists (`List Char`) so that every
definition is executable and kernel-reducible; external effects (the two
language-model calls, `json.loads`) are passed in as explicit parameters
(`Except String String` for a call that either returns text or raises, and
`String → Option JVal` for the JSON parser).
-/

/-! ### Character-list string primitives

Python's `str.strip`, `str.lower`, `"\n".join`, `str.split("\n")` modelled
on `List Char`. -/

/-- Python `str.strip()` (whitespace trim at both ends). -/
def trimL (cs : List Char) : List Char :=
  ((cs.dropWhile Char.isWhitespace).reverse.dropWhile Char.isWhitespace).reverse

/-- Python `str.lower()` (ASCII case folding, which covers the keyword set). -/
def lowerL (cs : List Char) : List Char :=
  cs.map Char.toLower

/-- Python `s.split("\n")`: split at every newline, keeping empty pieces. -/
def splitNL : List Char → List (List Char)
  | [] => [[]]
  | c :: rest =>
    match splitNL rest with
    | [] => [[c]]
    | l :: ls => if c = '\n' then [] :: l :: ls else (c :: l) :: ls

/-- Python `"\n".join(pieces)`. -/
def joinNL : List (List Char) → List Char
  | [] => []
  | [l] => l
  | l :: ls => l ++ '\n' :: joinNL ls

/-- Python `url.split("?")[0]`: everything before the first `?`. -/
def takeBeforeQm (cs : List Char) : List Char :=
  cs.takeWhile (· ≠ '?')

/-! ### URL canonicalization (`JobParser._clean_linkedin_url`) -/

/-- The literal prefix `https://www.linkedin.com` used by the fallback branch. -/
def httpPrefixL : List Char := "https://www.linkedin.com".toList

/-- The literal relative prefix `/comm/jobs/view/` tested by `startswith`. -/
def relPrefixL : List Char := "/comm/jobs/view/".toList

/-- The body of the regex `https://www\.linkedin\.com/comm/jobs/view/\d+`
up to the digit run. -/
def jobsViewPrefixL : List Char := "https://www.linkedin.com/comm/jobs/view/".toList

/-- One attempt of the regex `https://www\.linkedin\.com/comm/jobs/view/\d+`
at the head of `cs`: the literal prefix followed by a maximal nonempty digit
run (greedy `\d+`). -/
def matchAt (cs : List Char) : Option (List Char) :=
  if jobsViewPrefixL.isPrefixOf cs then
    let ds := (cs.drop jobsViewPrefixL.length).takeWhile Char.isDigit
    if ds.isEmpty then none else some (jobsViewPrefixL ++ ds)
  else none

/-- `re.search` for the pattern above: leftmost match wins. -/
def searchPattern : List Char → Option (List Char)
  | [] => none
  | c :: cs =>
    match matchAt (c :: cs) with
    | some m => some m
    | none => searchPattern cs

/-- `JobParser._clean_linkedin_url` on character lists, branch for branch:
empty url, regex search, relative `/comm/jobs/view/` reconstruction, and the
final query-string strip. -/
def cleanList (cs : List Char) : List Char :=
  if cs = [] then []
  else
    match searchPattern cs with
    | some m => m
    | none =>
      if relPrefixL.isPrefixOf cs then httpPrefixL ++ takeBeforeQm cs
      else if '?' ∈ cs then takeBeforeQm cs
      else cs

/-- `JobParser._clean_linkedin_url` on `String`. -/
def cleanLinkedinUrl (url : String) : String :=
  ⟨cleanList url.toList⟩

/-- Portion of a relative url between `/comm/jobs/view/` and the first `?`. -/
def idSegment (cs : List Char) : List Char :=
  (takeBeforeQm cs).drop relPrefixL.length

/-- Inputs on which canonicalization is not idempotent: a relative
`/comm/jobs/view/` url (with no embedded full canonical url) whose id
segment starts with at least one digit but is not all digits. -/
def relDigitBreak (cs : List Char) : Bool :=
  (searchPattern cs).isNone && relPrefixL.isPrefixOf cs &&
    !((idSegment cs).takeWhile Char.isDigit).isEmpty &&
    !((idSegment cs).dropWhile Char.isDigit).isEmpty

/-! ### Job records and the HTML extractor (`JobParser`)

The regex `findall` over the raw markup is modelled by its result: the list
of `(url, linkText)` capture pairs in document order.  The helper
`_extract_company_location_from_html` (a deterministic function of the full
document, the title and the cleaned url) is passed in as a parameter `ecl`,
and `_extract_job_from_card` results are passed as a list of `Option Job`
(`none` for a card the helper rejects), in document order. -/

/-- One job record (the `Job` TypedDict fields produced by the parser, plus
the legacy `score` field filled in later by the matcher). -/
structure Job where
  title : String
  company : String
  location : String
  link : String
  desc : String
  score : Option Int := none
deriving DecidableEq

/-- Body of the loop in `_parse_table_format` for one regex match
`(url, rawTitle)`: clean the url, strip the title, look up company and
location. -/
def mkTableJob (ecl : String → String → String × String) (url rawTitle : String) : Job :=
  let cleanUrl := cleanLinkedinUrl url
  let title : String := ⟨trimL rawTitle.toList⟩
  { title := title, company := (ecl title cleanUrl).1, location := (ecl title cleanUrl).2,
    link := cleanUrl, desc := "", score := none }

/-- The `seen_links` loop of `_parse_table_format`: emit each match whose
stripped title is nonempty and whose cleaned url was not seen before. -/
def parseTableFormatAux (ecl : String → String → String × String) :
    List (String × String) → List String → List Job
  | [], _ => []
  | (url, rawTitle) :: rest, seen =>
    let cleanUrl := cleanLinkedinUrl url
    let title : String := ⟨trimL rawTitle.toList⟩
    if title = "" ∨ cleanUrl ∈ seen then parseTableFormatAux ecl rest seen
    else mkTableJob ecl url rawTitle :: parseTableFormatAux ecl rest (cleanUrl :: seen)

/-- `JobParser._parse_table_format`. -/
def parseTableFormat (ecl : String → String → String × String)
    (ms : List (String × String)) : List Job :=
  parseTableFormatAux ecl ms []

/-- The candidate stream of the table strategy: every regex match with a
nonempty stripped title, as a job record, in document order (the entries
`_parse_table_format` considers for emission). -/
def tableCandidates (ecl : String → String → String × String)
    (ms : List (String × String)) : List Job :=
  ms.filterMap fun m =>
    if (⟨trimL m.2.toList⟩ : String) = "" then none else some (mkTableJob ecl m.1 m.2)

/-- The `seen_links` dedup loop of `parse_html` over already-built jobs. -/
def dedupSeen (seen : List String) : List Job → List Job
  | [] => []
  | j :: rest =>
    if j.link ∈ seen then dedupSeen seen rest
    else j :: dedupSeen (j.link :: seen) rest

/-- `JobParser.parse_html`: table strategy first, falling back to the
div-card strategy only when the table loop emitted nothing (in which case
`seen_links` is exactly the emitted table links, i.e. empty). -/
def parseHtml (ecl : String → String → String × String)
    (ms : List (String × String)) (cards : List (Option Job)) : List Job :=
  let tableJobs := parseTableFormat ecl ms
  let jobs := dedupSeen [] tableJobs
  if jobs.isEmpty then dedupSeen (jobs.map Job.link) (cards.filterMap id) else jobs

/-- Candidate stream of whichever strategy `parse_html` settles on. -/
def htmlCandidates (ecl : String → String → String × String)
    (ms : List (String × String)) (cards : List (Option Job)) : List Job :=
  if (dedupSeen [] (parseTableFormat ecl ms)).isEmpty then cards.filterMap id
  else tableCandidates ecl ms

/-! ### Dedup/filter engine (`JobFilter`)

The `JobFilter` object state is its loaded history set (held as a list with
membership semantics) and the score threshold; methods that mutate
`self.history` return the updated object.  The `Nat` returned by
`filterJobs` counts the `_save_history()` calls of the phase. -/

/-- `JobFilter` object state. -/
structure JobFilter where
  history : List String
  threshold : Int

/-- Keyword list of `_is_senior_role`. -/
def excludedKeywords : List String :=
  ["senior", "lead", "principal", "architect", "director", "manager", "head of"]

/-- `JobFilter._is_senior_role`: case-insensitive substring test of each
keyword against the title. -/
def isSeniorRole (title : String) : Bool :=
  excludedKeywords.any fun kw => decide (kw.toList <:+: lowerL title.toList)

/-- Loop body of `JobFilter.deduplicate_jobs`: returns
`(new_jobs, duplicate_jobs, excluded_jobs)`. -/
def dedupSplit (hist : List String) : List Job → List Job × List Job × List Job
  | [] => ([], [], [])
  | j :: rest =>
    let r := dedupSplit hist rest
    if isSeniorRole j.title then (r.1, r.2.1, j :: r.2.2)
    else if j.link ∈ hist then (r.1, j :: r.2.1, r.2.2)
    else (j :: r.1, r.2.1, r.2.2)

/-- `JobFilter.deduplicate_jobs` (pre-scoring phase).  The method only reads
`self.history`, so the returned object state is the receiver unchanged. -/
def JobFilter.deduplicateJobs (f : JobFilter) (jobs : List Job) :
    (List Job × List Job × List Job) × JobFilter :=
  (dedupSplit f.history jobs, f)

/-- Loop of `JobFilter.filter_jobs`: drop below-threshold jobs
(`job.get("score", 0) < threshold`), drop already-sent links, and add each
kept link to the in-memory history immediately. -/
def filterLoop (th : Int) : List Job → List String → List Job × List String
  | [], hist => ([], hist)
  | j :: rest, hist =>
    if j.score.getD 0 < th then filterLoop th rest hist
    else if j.link ∈ hist then filterLoop th rest hist
    else
      let r := filterLoop th rest (j.link :: hist)
      (j :: r.1, r.2)

/-- `JobFilter.filter_jobs` (post-scoring phase): the kept jobs, the updated
object state, and the number of `_save_history()` calls (one iff anything
was kept). -/
def JobFilter.filterJobs (f : JobFilter) (jobs : List Job) :
    List Job × JobFilter × Nat :=
  let r := filterLoop f.threshold jobs f.history
  (r.1, { f with history := r.2 }, if r.1.isEmpty then 0 else 1)

/-! ### Decoded JSON values and Python conversions

`json.loads` is an external collaborator: it is passed in as a parameter
`pj : String → Option JVal` (`none` models a raised `JSONDecodeError`).
`JVal` is the universe of decoded values it can return. -/

/-- A decoded JSON value. -/
inductive JVal where
  | null
  | bool (b : Bool)
  | num (q : ℚ)
  | str (s : String)
  | arr (items : List JVal)
  | obj (fields : List (String × JVal))

/-- Python `d[k]` / `k in d` on a decoded object (keys produced by
`json.loads` are distinct, so first-match lookup is exact). -/
def assocFind (fields : List (String × JVal)) (k : String) : Option JVal :=
  (fields.find? fun p => p.1 == k).map (·.2)

/-- Python `d.get(k, default)` on a decoded object. -/
def jsonGet (fields : List (String × JVal)) (k : String) (d : JVal) : JVal :=
  (assocFind fields k).getD d

/-- Digit run to a number (the usual base-10 fold). -/
def digitsToNat (ds : List Char) : Nat :=
  ds.foldl (fun acc c => acc * 10 + (c.toNat - '0'.toNat)) 0

/-- Python `int(s)` on a string: optional surrounding whitespace, optional
sign, then a nonempty digit run. -/
def parseIntL (cs : List Char) : Option Int :=
  let t := trimL cs
  let sb : Int × List Char :=
    match t with
    | '+' :: rest => (1, rest)
    | '-' :: rest => (-1, rest)
    | _ => (1, t)
  if sb.2 ≠ [] ∧ sb.2.all Char.isDigit then some (sb.1 * digitsToNat sb.2) else none

/-- Python `float(s)` on a string: optional whitespace and sign, integer
digits, optional fraction digits (exponent notation left unsupported, as no
claim exercises it). -/
def parseFloatL (cs : List Char) : Option ℚ :=
  let t := trimL cs
  let sb : ℚ × List Char :=
    match t with
    | '+' :: rest => (1, rest)
    | '-' :: rest => (-1, rest)
    | _ => (1, t)
  let ip := sb.2.takeWhile Char.isDigit
  match sb.2.drop ip.length with
  | [] => if ip ≠ [] then some (sb.1 * digitsToNat ip) else none
  | '.' :: fp =>
    if (ip ≠ [] ∨ fp ≠ []) ∧ fp.all Char.isDigit then
      some (sb.1 * ((digitsToNat ip : ℚ) + (digitsToNat fp : ℚ) / (10 ^ fp.length : ℚ)))
    else none
  | _ => none

/-- Python truncation toward zero (`int(x)` on a number). -/
def intTrunc (q : ℚ) : Int :=
  if 0 ≤ q then ⌊q⌋ else ⌈q⌉

/-- Python `int(v)` on a decoded JSON value (`TypeError`/`ValueError` as
`none`). -/
def jvalToInt : JVal → Option Int
  | JVal.num q => some (intTrunc q)
  | JVal.bool b => some (if b then 1 else 0)
  | JVal.str s => parseIntL s.toList
  | _ => none

/-- Python `float(v)` on a decoded JSON value. -/
def jvalToNum : JVal → Option ℚ
  | JVal.num q => some q
  | JVal.bool b => some (if b then 1 else 0)
  | JVal.str s => parseFloatL s.toList
  | _ => none

/-- Python `len(v)` on a decoded JSON value: defined for sized values,
`TypeError` (as `none`) otherwise. -/
def jvalLen : JVal → Option Nat
  | JVal.str s => some s.toList.length
  | JVal.arr items => some items.length
  | JVal.obj fields => some fields.length
  | _ => none

/-! ### Fenced code block stripping -/

/-- Fence scan shared by `JDExtractor._parse_response` and
`EnhancedJobMatcher._parse_response`: the Python loop
`for i in range(len(lines)-1, 0, -1)` finds the largest `i ≥ 1` whose
stripped line is a bare fence. -/
def findFenceEnd (lines : List (List Char)) : Option Nat :=
  ((List.range lines.length).filter fun i =>
    1 ≤ i && decide (trimL (lines.getD i []) = "```".toList)).getLast?

/-- Markdown-fence stripping of `JDExtractor._parse_response` and
`EnhancedJobMatcher._parse_response`: strip, and when the text opens with a
fence keep `lines[1:end_idx]` (with `end_idx = -1`, i.e. `lines[1:-1]`,
when the scan finds no closing fence). -/
def stripFenced (cs : List Char) : List Char :=
  let t := trimL cs
  if "```".toList.isPrefixOf t then
    let lines := splitNL t
    match findFenceEnd lines with
    | some i => joinNL ((lines.take i).drop 1)
    | none => joinNL (lines.dropLast.drop 1)
  else t

/-- String-level wrapper of `stripFenced`. -/
def stripLLMResponse (r : String) : String :=
  ⟨stripFenced r.toList⟩

/-- Fence stripping of the legacy `JobMatcher._parse_response`: always
`lines[1:-1]`, with no scan for the closing fence. -/
def stripFencedLegacy (cs : List Char) : List Char :=
  let t := trimL cs
  if "```".toList.isPrefixOf t then joinNL ((splitNL t).dropLast.drop 1) else t

/-- String-level wrapper of `stripFencedLegacy`. -/
def stripLegacyResponse (r : String) : String :=
  ⟨stripFencedLegacy r.toList⟩

/-! ### Stage A: `JDExtractor` -/

/-- One extracted requirement (`Requirement` TypedDict).  Fields hold the
raw decoded JSON values, as the Python code stores them unvalidated. -/
structure Requirement where
  category : JVal
  item : JVal
  level : JVal
  priority : JVal

/-- Validation loop body of `JDExtractor._parse_response`: keep a decoded
entry iff it is an object containing `item`; fill `category`, `level` and
`priority` from defaults when missing. -/
def validateEntry : JVal → Option Requirement
  | JVal.obj o =>
    match assocFind o "item" with
    | some it =>
      some { category := jsonGet o "category" (JVal.str "other"), item := it,
             level := jsonGet o "level" (JVal.str ""),
             priority := jsonGet o "priority" (JVal.str "must") }
    | none => none
  | _ => none

/-- `JDExtractor._parse_response`: strip the optional fence, decode, require
an array, validate entrywise; every failure path yields `[]`. -/
def extractorParseResponse (pj : String → Option JVal) (resp : String) : List Requirement :=
  match pj (stripLLMResponse resp) with
  | some (JVal.arr items) => items.filterMap validateEntry
  | _ => []

/-- `JDExtractor.extract_requirements`: `call` is the model invocation
(`Except.error` when `llm.invoke` raises); on a raised call the fallback
synthesizes one requirement from `job.get("title", "Unknown")`.  The
function is total — extraction never raises. -/
def extractRequirements (pj : String → Option JVal) (call : Except String String)
    (title? : Option String) : List Requirement :=
  match call with
  | Except.ok resp => extractorParseResponse pj resp
  | Except.error _ =>
    [{ category := JVal.str "role", item := JVal.str (title?.getD "Unknown"),
       level := JVal.str "", priority := JVal.str "must" }]

/-! ### Stage B: `EnhancedJobMatcher` and the legacy `JobMatcher`

Both matchers are modelled as the `(score, reasons, ...)` fields that
`match_job` writes onto the job dict; the job itself only feeds the prompt,
which is opaque behind the `call` parameter. -/

/-- Structured stage-B report (`EnhancedMatchResult` TypedDict);
`partMatches` models the `partial_matches` field.  List fields hold the raw
decoded JSON values (the code applies no validation to them). -/
structure EnhancedMatchResult where
  match_score : ℚ
  strong_matches : JVal
  partMatches : JVal
  gaps : JVal
  cv_suggestions : JVal

/-- Zero report returned by both failure paths of the enhanced matcher. -/
def zeroReport : EnhancedMatchResult :=
  { match_score := 0, strong_matches := JVal.arr [], partMatches := JVal.arr [],
    gaps := JVal.arr [], cv_suggestions := JVal.arr [] }

/-- `EnhancedJobMatcher._parse_response`: strip fences, decode, convert
`match_score` with `float(...)`; any exception inside the `try` (decode
failure, non-object result via `result.get`, unconvertible score) yields
the zero report. -/
def enhancedParseResponse (pj : String → Option JVal) (resp : String) : EnhancedMatchResult :=
  match pj (stripLLMResponse resp) with
  | some (JVal.obj o) =>
    match jvalToNum (jsonGet o "match_score" (JVal.num 0)) with
    | some q =>
      { match_score := q,
        strong_matches := jsonGet o "strong_matches" (JVal.arr []),
        partMatches := jsonGet o "partial_matches" (JVal.arr []),
        gaps := jsonGet o "gaps" (JVal.arr []),
        cv_suggestions := jsonGet o "cv_suggestions" (JVal.arr []) }
    | none => zeroReport
  | _ => zeroReport

/-- Python `", ".join`. -/
def joinComma : List String → String
  | [] => ""
  | [s] => s
  | s :: rest => s ++ ", " ++ joinComma rest

/-- `EnhancedJobMatcher._generate_summary`: tally the three evidence lists
with `len(...)`; `none` models the `TypeError` raised by `len` on an
unsized value (caught by the caller's `except`). -/
def generateSummary (r : EnhancedMatchResult) : Option String :=
  match jvalLen r.strong_matches, jvalLen r.partMatches, jvalLen r.gaps with
  | some s, some p, some g =>
    let parts : List String :=
      (if s ≠ 0 then [toString s ++ " strong match(es)"] else []) ++
      (if p ≠ 0 then [toString p ++ " partial match(es)"] else []) ++
      (if g ≠ 0 then [toString g ++ " gap(s)"] else [])
    some (if parts = [] then "No match info" else joinComma parts)
  | _, _, _ => none

/-- `EnhancedJobMatcher.match_job` as the `(score, reasons, enhanced_result)`
triple it writes.  `call` is the chat-completions request (`Except.error e`
when it raises, carrying `str(e)`); `lenErrMsg` stands for `str(e)` of a
`TypeError` raised inside `_generate_summary`, which the same outer
`except` converts to the fallback triple. -/
def enhancedMatchJob (pj : String → Option JVal) (lenErrMsg : String) :
    Except String String → Int × String × EnhancedMatchResult
  | Except.error msg => (0, "Enhanced matching error: " ++ msg, zeroReport)
  | Except.ok resp =>
    let r := enhancedParseResponse pj resp
    match generateSummary r with
    | some summ => (intTrunc (r.match_score * 100), summ, r)
    | none => (0, "Enhanced matching error: " ++ lenErrMsg, zeroReport)

/-- Conversion-and-clamp step of the legacy `JobMatcher._parse_response`:
`score = int(result["score"])`, clamped with `max(0, min(100, score))` when
out of range; a raised `int(...)` yields the fixed fallback pair. -/
def legacyScored (sv rv : JVal) : Int × JVal :=
  match jvalToInt sv with
  | some n => (if 0 ≤ n ∧ n ≤ 100 then n else max 0 (min 100 n), rv)
  | none => (0, JVal.str "Failed to parse LLM response")

/-- Decoded-object part of the legacy `JobMatcher._parse_response`: require
both `score` and `reasons`, then convert and clamp. -/
def legacyFromObj (o : List (String × JVal)) : Int × JVal :=
  match assocFind o "score", assocFind o "reasons" with
  | some sv, some rv => legacyScored sv rv
  | _, _ => (0, JVal.str "Failed to parse LLM response")

/-- `JobMatcher._parse_response` (legacy): strip `lines[1:-1]` fences,
decode to an object, then `legacyFromObj`. -/
def legacyParseResponse (pj : String → Option JVal) (resp : String) : Int × JVal :=
  match pj (stripLegacyResponse resp) with
  | some (JVal.obj o) => legacyFromObj o
  | _ => (0, JVal.str "Failed to parse LLM response")

/-- `JobMatcher.match_job` (legacy) as the `(score, reasons)` pair it
writes. -/
def legacyMatchJob (pj : String → Option JVal) : Except String String → Int × JVal
  | Except.error msg => (0, JVal.str ("Error during matching: " ++ msg))
  | Except.ok resp => legacyParseResponse pj resp

/-! ### Lemmas about the embedded regex search -/

example : cleanLinkedinUrl "https://www.linkedin.com/comm/jobs/view/4012345678?trk=abc"
    = "https://www.linkedin.com/comm/jobs/view/4012345678" := by decide
example : cleanLinkedinUrl "/comm/jobs/view/123?x=1"
    = "https://www.linkedin.com/comm/jobs/view/123" := by decide
example : cleanLinkedinUrl "http://other.example/a?b" = "http://other.example/a" := by decide
example : cleanLinkedinUrl "" = "" := by decide
example : cleanLinkedinUrl (cleanLinkedinUrl "/comm/jobs/view/123a")
    ≠ cleanLinkedinUrl "/comm/jobs/view/123a" := by decide

lemma matchAt_nil : matchAt [] = none := by decide

lemma matchAt_shape {cs m : List Char} (h : matchAt cs = some m) :
    ∃ ds, m = jobsViewPrefixL ++ ds ∧ ds ≠ [] ∧ ∀ c ∈ ds, c.isDigit := by
  unfold matchAt at h
  split at h
  · set ds := (cs.drop jobsViewPrefixL.length).takeWhile Char.isDigit with hds
    by_cases hempty : ds.isEmpty
    · simp [hempty] at h
    · refine ⟨ds, ?_, ?_, ?_⟩
      · simp [hempty] at h
        exact h.symm
      · simpa [List.isEmpty_iff] using hempty
      · intro c hc
        exact List.mem_takeWhile_imp hc
  · exact absurd h (by simp)

lemma matchAt_self {ds : List Char} (hne : ds ≠ []) (hdig : ∀ c ∈ ds, c.isDigit) :
    matchAt (jobsViewPrefixL ++ ds) = some (jobsViewPrefixL ++ ds) := by
  unfold matchAt
  have hpre : jobsViewPrefixL.isPrefixOf (jobsViewPrefixL ++ ds) = true :=
    List.isPrefixOf_iff_prefix.mpr (List.prefix_append _ _)
  rw [if_pos hpre]
  have hdrop : (jobsViewPrefixL ++ ds).drop jobsViewPrefixL.length = ds :=
    List.drop_left _ _
  rw [hdrop]
  have htw : ds.takeWhile Char.isDigit = ds := by
    rw [List.takeWhile_eq_self_iff]
    exact hdig
  rw [htw]
  simp [List.isEmpty_iff, hne]

lemma searchPattern_of_matchAt {cs m : List Char} (h : matchAt cs = some m) :
    searchPattern cs = some m := by
  cases cs with
  | nil => rw [matchAt_nil] at h; exact absurd h (by simp)
  | cons c rest => unfold searchPattern; rw [h]

lemma searchPattern_shape {cs m : List Char} (h : searchPattern cs = some m) :
    ∃ ds, m = jobsViewPrefixL ++ ds ∧ ds ≠ [] ∧ ∀ c ∈ ds, c.isDigit := by
  induction cs with
  | nil => exact absurd h (by simp [searchPattern])
  | cons c rest ih =>
    unfold searchPattern at h
    cases hm : matchAt (c :: rest) with
    | some m' => rw [hm] at h; cases h; exact matchAt_shape hm
    | none => rw [hm] at h; exact ih h

lemma searchPattern_none_iff {cs : List Char} :
    searchPattern cs = none ↔ ∀ k, matchAt (cs.drop k) = none := by
  induction cs with
  | nil => simp [searchPattern, matchAt_nil]
  | cons c rest ih =>
    constructor
    · intro h k
      unfold searchPattern at h
      cases hm : matchAt (c :: rest) with
      | some m' => rw [hm] at h; exact absurd h (by simp)
      | none =>
        rw [hm] at h
        cases k with
        | zero => simpa using hm
        | succ k => simpa using ih.mp h k
    · intro h
      unfold searchPattern
      have h0 := h 0
      simp only [List.drop_zero] at h0
      rw [h0]
      exact ih.mpr fun k => by simpa using h (k + 1)

lemma matchAt_ne_none_iff {cs : List Char} :
    matchAt cs ≠ none ↔ ∃ d, d.isDigit ∧ jobsViewPrefixL ++ [d] <+: cs := by
  constructor
  · intro h
    cases hm : matchAt cs with
    | none => exact absurd hm h
    | some m =>
      unfold matchAt at hm
      split at hm
      · rename_i hpre
        set ds := (cs.drop jobsViewPrefixL.length).takeWhile Char.isDigit with hds
        by_cases hempty : ds.isEmpty
        · simp [hempty] at hm
        · obtain ⟨t, ht⟩ := List.isPrefixOf_iff_prefix.mp hpre
          have hdropt : cs.drop jobsViewPrefixL.length = t := by
            rw [← ht]; exact List.drop_left _ _
          rw [hdropt] at hds
          cases hds' : ds with
          | nil => rw [hds'] at hempty; simp at hempty
          | cons d ds' =>
            refine ⟨d, ?_, ?_⟩
            · have : d ∈ ds := by rw [hds']; exact List.mem_cons_self _ _
              exact List.mem_takeWhile_imp (by rw [← hds]; exact this)
            · have hpref : ds <+: t := by rw [hds]; exact List.takeWhile_prefix _
              have : [d] <+: t := by
                rw [hds'] at hpref
                obtain ⟨u, hu⟩ := hpref
                exact ⟨ds' ++ u, by rw [← hu]; simp⟩
              rw [← ht]
              exact (List.prefix_append_right_inj jobsViewPrefixL).mpr this
      · exact absurd hm (by simp)
  · rintro ⟨d, hd, ⟨t, ht⟩⟩
    have hpre : jobsViewPrefixL.isPrefixOf cs = true := by
      rw [List.isPrefixOf_iff_prefix]
      exact ⟨d :: t, by rw [← ht]; simp⟩
    have hdrop : cs.drop jobsViewPrefixL.length = d :: t := by
      rw [← ht, List.append_assoc]
      simp [List.drop_left jobsViewPrefixL (d :: t)]
    unfold matchAt
    rw [if_pos hpre, hdrop]
    simp [List.takeWhile_cons, hd]

lemma infix_iff_prefix_drop {l cs : List Char} :
    l <:+: cs ↔ ∃ k, l <+: cs.drop k := by
  constructor
  · rintro ⟨s, t, hst⟩
    refine ⟨s.length, ?_⟩
    have : cs.drop s.length = l ++ t := by
      rw [← hst, List.append_assoc]
      exact List.drop_left _ _
    rw [this]
    exact List.prefix_append _ _
  · rintro ⟨k, hk⟩
    exact hk.isInfix.trans (List.drop_suffix k cs).isInfix

lemma searchPattern_ne_none_iff {cs : List Char} :
    searchPattern cs ≠ none ↔ ∃ d, d.isDigit ∧ jobsViewPrefixL ++ [d] <:+: cs := by
  constructor
  · intro h
    have : ¬ ∀ k, matchAt (cs.drop k) = none := fun hall =>
      h (searchPattern_none_iff.mpr hall)
    push_neg at this
    obtain ⟨k, hk⟩ := this
    obtain ⟨d, hd, hpre⟩ := matchAt_ne_none_iff.mp hk
    exact ⟨d, hd, infix_iff_prefix_drop.mpr ⟨k, hpre⟩⟩
  · rintro ⟨d, hd, hinf⟩
    obtain ⟨k, hk⟩ := infix_iff_prefix_drop.mp hinf
    have hm : matchAt (cs.drop k) ≠ none := matchAt_ne_none_iff.mpr ⟨d, hd, hk⟩
    intro h
    exact hm (searchPattern_none_iff.mp h k)

lemma searchPattern_none_of_infix {l cs : List Char}
    (h : searchPattern cs = none) (hinf : l <:+: cs) : searchPattern l = none := by
  by_contra hne
  obtain ⟨d, hd, hocc⟩ := searchPattern_ne_none_iff.mp hne
  exact (searchPattern_ne_none_iff.mpr ⟨d, hd, hocc.trans hinf⟩) h

lemma httpRel_eq : httpPrefixL ++ relPrefixL = jobsViewPrefixL := by decide

lemma jobsView_ne_nil : jobsViewPrefixL ≠ [] := by decide

lemma rel_not_prefix_jobsView (t : List Char) : ¬ relPrefixL <+: jobsViewPrefixL ++ t := by
  rintro ⟨s, hs⟩
  have h1 : (relPrefixL ++ s).head? = some '/' := rfl
  have h2 : (jobsViewPrefixL ++ t).head? = some 'h' := rfl
  rw [hs, h2] at h1
  exact absurd (Option.some.inj h1) (by decide)

lemma takeBeforeQm_rel (t : List Char) :
    takeBeforeQm (relPrefixL ++ t) = relPrefixL ++ takeBeforeQm t := by
  unfold takeBeforeQm
  rw [List.takeWhile_append]
  rw [if_pos (by decide)]

lemma not_qm_mem_takeBeforeQm (cs : List Char) : '?' ∉ takeBeforeQm cs := by
  intro h
  have := List.mem_takeWhile_imp h
  simp at this

lemma searchPattern_none_append {seg : List Char}
    (hocc : ∀ d, d.isDigit → ¬ jobsViewPrefixL ++ [d] <:+: seg)
    (hhead : seg.takeWhile Char.isDigit = []) :
    searchPattern (jobsViewPrefixL ++ seg) = none := by
  by_contra hne
  obtain ⟨d, hd, hinf⟩ := searchPattern_ne_none_iff.mp hne
  obtain ⟨k, hk⟩ := infix_iff_prefix_drop.mp hinf
  rcases Nat.lt_or_ge k jobsViewPrefixL.length with hlt | hge
  · have hdropeq : (jobsViewPrefixL ++ seg).drop k = jobsViewPrefixL.drop k ++ seg := by
      rw [List.drop_append_eq_append_drop]
      have : k - jobsViewPrefixL.length = 0 := by omega
      rw [this, List.drop_zero]
    rw [hdropeq] at hk
    rcases Nat.eq_zero_or_pos k with hk0 | hkpos
    · subst hk0
      simp only [List.drop_zero] at hk
      have : [d] <+: seg := (List.prefix_append_right_inj jobsViewPrefixL).mp hk
      obtain ⟨u, hu⟩ := this
      rw [← hu] at hhead
      simp [List.takeWhile_cons, hd] at hhead
    · have hdnn : jobsViewPrefixL.drop k ≠ [] := by
        intro h
        have := List.drop_eq_nil_iff.mp h
        omega
      obtain ⟨u, hu⟩ := hk
      have hhd : (jobsViewPrefixL ++ [d] ++ u).head? = some 'h' := by
        rw [List.append_assoc]; rfl
      rw [hu] at hhd
      have hhd2 : (jobsViewPrefixL.drop k ++ seg).head? = jobsViewPrefixL[k]? := by
        rcases hnn : jobsViewPrefixL.drop k with _ | ⟨a, as⟩
        · exact absurd hnn hdnn
        · have : (jobsViewPrefixL.drop k).head? = jobsViewPrefixL[k]? := by
            rw [List.head?_drop]
          rw [hnn] at this
          simp only [List.cons_append, List.head?_cons]
          exact this
      rw [hhd2] at hhd
      have hmem : 'h' ∈ jobsViewPrefixL.drop 1 := by
        have h1 : (jobsViewPrefixL.drop 1)[k - 1]? = jobsViewPrefixL[k]? := by
          rw [List.getElem?_drop]
          congr 1
          omega
        rw [hhd] at h1
        exact List.getElem?_mem h1
      exact absurd hmem (by decide)
  · have hdropeq : (jobsViewPrefixL ++ seg).drop k = seg.drop (k - jobsViewPrefixL.length) := by
      rw [List.drop_append_eq_append_drop]
      rw [List.drop_eq_nil_iff.mpr (by omega), List.nil_append]
    rw [hdropeq] at hk
    exact hocc d hd (infix_iff_prefix_drop.mpr ⟨k - jobsViewPrefixL.length, hk⟩)

lemma cleanList_nil : cleanList [] = [] := by decide

lemma cleanList_idem_iff (cs : List Char) :
    cleanList (cleanList cs) = cleanList cs ↔ relDigitBreak cs = false := by
  by_cases hnil : cs = []
  · subst hnil; decide
  cases hsp : searchPattern cs with
  | some m =>
    have hc : cleanList cs = m := by unfold cleanList; rw [if_neg hnil, hsp]
    obtain ⟨ds, hm, hne, hdig⟩ := searchPattern_shape hsp
    have hmne : m ≠ [] := by
      rw [hm]; intro h
      exact jobsView_ne_nil (List.append_eq_nil.mp h).1
    have hsm : searchPattern m = some m := by
      rw [hm]; exact searchPattern_of_matchAt (matchAt_self hne hdig)
    have hidem : cleanList m = m := by unfold cleanList; rw [if_neg hmne, hsm]
    rw [hc, hidem]
    simp [relDigitBreak, hsp]
  | none =>
    by_cases hrel : relPrefixL.isPrefixOf cs = true
    · obtain ⟨t, ht⟩ := List.isPrefixOf_iff_prefix.mp hrel
      have hc : cleanList cs = httpPrefixL ++ takeBeforeQm cs := by
        unfold cleanList; rw [if_neg hnil, hsp, if_pos hrel]
      have hTB : takeBeforeQm cs = relPrefixL ++ takeBeforeQm t := by
        rw [← ht, takeBeforeQm_rel]
      have hseg : idSegment cs = takeBeforeQm t := by
        unfold idSegment; rw [hTB, List.drop_left]
      have hr : cleanList cs = jobsViewPrefixL ++ takeBeforeQm t := by
        rw [hc, hTB, ← List.append_assoc, httpRel_eq]
      set seg := takeBeforeQm t with hsegdef
      have hrne : jobsViewPrefixL ++ seg ≠ [] := fun h =>
        jobsView_ne_nil (List.append_eq_nil.mp h).1
      have hsegInfix : seg <:+: cs := by
        have h1 : seg <+: t := List.takeWhile_prefix _
        have h2 : t <:+ cs := ⟨relPrefixL, ht⟩
        exact h1.isInfix.trans h2.isInfix
      have hocc : ∀ d, d.isDigit → ¬ jobsViewPrefixL ++ [d] <:+: seg := by
        intro d hd hinf
        exact (searchPattern_ne_none_iff.mpr ⟨d, hd, hinf.trans hsegInfix⟩) hsp
      by_cases hds : seg.takeWhile Char.isDigit = []
      · have hnone : searchPattern (jobsViewPrefixL ++ seg) = none :=
          searchPattern_none_append hocc hds
        have hnrel : ¬ relPrefixL.isPrefixOf (jobsViewPrefixL ++ seg) = true := by
          rw [List.isPrefixOf_iff_prefix]; exact rel_not_prefix_jobsView seg
        have hnq : ¬ ('?' ∈ jobsViewPrefixL ++ seg) := by
          intro h
          rcases List.mem_append.mp h with h | h
          · exact absurd h (by decide)
          · exact not_qm_mem_takeBeforeQm t h
        have hidem : cleanList (jobsViewPrefixL ++ seg) = jobsViewPrefixL ++ seg := by
          unfold cleanList
          rw [if_neg hrne, hnone, if_neg hnrel, if_neg hnq]
        rw [hr, hidem]
        simp [relDigitBreak, hseg, hds]
      · by_cases hrest : seg.dropWhile Char.isDigit = []
        · have hsegds : seg.takeWhile Char.isDigit = seg := by
            conv_rhs => rw [← List.takeWhile_append_dropWhile (p := Char.isDigit) (l := seg)]
            rw [hrest, List.append_nil]
          have hdigs : ∀ c ∈ seg, c.isDigit := by
            intro c hc
            rw [← hsegds] at hc
            exact List.mem_takeWhile_imp hc
          have hsegne : seg ≠ [] := by
            intro h; rw [h] at hds; simp at hds
          have hsm : searchPattern (jobsViewPrefixL ++ seg) = some (jobsViewPrefixL ++ seg) :=
            searchPattern_of_matchAt (matchAt_self hsegne hdigs)
          have hidem : cleanList (jobsViewPrefixL ++ seg) = jobsViewPrefixL ++ seg := by
            unfold cleanList; rw [if_neg hrne, hsm]
          rw [hr, hidem]
          simp [relDigitBreak, hseg, hrest]
        · have hm2 : matchAt (jobsViewPrefixL ++ seg)
              = some (jobsViewPrefixL ++ seg.takeWhile Char.isDigit) := by
            unfold matchAt
            rw [if_pos (List.isPrefixOf_iff_prefix.mpr (List.prefix_append _ _))]
            rw [List.drop_left]
            have hfalse : (seg.takeWhile Char.isDigit).isEmpty = false := by
              simpa [List.isEmpty_iff] using hds
            simp [hfalse]
          have hsm := searchPattern_of_matchAt hm2
          have hclean2 : cleanList (jobsViewPrefixL ++ seg)
              = jobsViewPrefixL ++ seg.takeWhile Char.isDigit := by
            unfold cleanList; rw [if_neg hrne, hsm]
          have hneq : jobsViewPrefixL ++ seg.takeWhile Char.isDigit ≠ jobsViewPrefixL ++ seg := by
            intro h
            have h2 : seg.takeWhile Char.isDigit = seg := List.append_cancel_left h
            have h3 := List.takeWhile_append_dropWhile (p := Char.isDigit) (l := seg)
            rw [h2] at h3
            have h4 : seg ++ seg.dropWhile Char.isDigit = seg ++ [] := by
              rw [List.append_nil]; exact h3
            exact hrest (List.append_cancel_left h4)
          constructor
          · intro h
            rw [hr, hclean2] at h
            exact absurd h hneq
          · intro h
            exfalso
            rw [relDigitBreak, hsp, hseg] at h
            simp [hrel, hds, hrest, List.isEmpty_iff] at h
    · by_cases hq : '?' ∈ cs
      · have hc : cleanList cs = takeBeforeQm cs := by
          unfold cleanList; rw [if_neg hnil, hsp, if_neg hrel, if_pos hq]
        have hrpre : takeBeforeQm cs <+: cs := List.takeWhile_prefix _
        have hidem : cleanList (takeBeforeQm cs) = takeBeforeQm cs := by
          by_cases hrnil : takeBeforeQm cs = []
          · rw [hrnil, cleanList_nil]
          · have hsr : searchPattern (takeBeforeQm cs) = none :=
              searchPattern_none_of_infix hsp hrpre.isInfix
            have hnrel : ¬ relPrefixL.isPrefixOf (takeBeforeQm cs) = true := by
              rw [List.isPrefixOf_iff_prefix]
              intro hpre
              exact hrel (List.isPrefixOf_iff_prefix.mpr (hpre.trans hrpre))
            have hnq : ¬ '?' ∈ takeBeforeQm cs := not_qm_mem_takeBeforeQm cs
            unfold cleanList
            rw [if_neg hrnil, hsr, if_neg hnrel, if_neg hnq]
        rw [hc, hidem]
        simp [relDigitBreak, hrel]
      · have hc : cleanList cs = cs := by
          unfold cleanList; rw [if_neg hnil, hsp, if_neg hrel, if_neg hq]
        rw [hc, hc]
        simp [relDigitBreak, hrel]

/-- Claim C5 (counterexample): URL canonicalization is not idempotent on all
inputs. On the relative url `/comm/jobs/view/123a` the first pass prepends
the host and keeps the whole id segment, while the second pass re-runs the
regex and truncates at the first non-digit, giving a different string. -/
theorem clean_url_not_idempotent :
    cleanLinkedinUrl (cleanLinkedinUrl "/comm/jobs/view/123a")
      ≠ cleanLinkedinUrl "/comm/jobs/view/123a" := by decide

/-- Claim C5 (amended): canonicalization is idempotent exactly on the inputs
that do not hit the relative-url branch with a digit run followed by extra
non-digit characters in the id segment; `relDigitBreak` is the precise
(decidable) description of the failing family. -/
theorem clean_url_idempotent_iff (url : String) :
    cleanLinkedinUrl (cleanLinkedinUrl url) = cleanLinkedinUrl url
      ↔ relDigitBreak url.toList = false := by
  have h1 : (cleanLinkedinUrl url).toList = cleanList url.toList := rfl
  have h2 : ∀ a b : List Char, (⟨a⟩ : String) = ⟨b⟩ ↔ a = b := by
    intro a b
    exact ⟨fun h => congrArg String.toList h, fun h => congrArg String.mk h⟩
  calc cleanLinkedinUrl (cleanLinkedinUrl url) = cleanLinkedinUrl url
      ↔ cleanList (cleanList url.toList) = cleanList url.toList := by
        unfold cleanLinkedinUrl
        rw [show ({ data := cleanList url.toList } : String).toList = cleanList url.toList
          from rfl]
        exact h2 _ _
    _ ↔ relDigitBreak url.toList = false := cleanList_idem_iff _

/-! ### Lemmas about the dedup/filter engine -/

lemma filterLoop_nil (th : Int) (hist : List String) :
    filterLoop th [] hist = ([], hist) := rfl

lemma filterLoop_cons (th : Int) (x : Job) (rest : List Job) (hist : List String) :
    filterLoop th (x :: rest) hist =
      if x.score.getD 0 < th then filterLoop th rest hist
      else if x.link ∈ hist then filterLoop th rest hist
      else (x :: (filterLoop th rest (x.link :: hist)).1,
            (filterLoop th rest (x.link :: hist)).2) := rfl

lemma filterLoop_hist_mono {th : Int} {jobs : List Job} :
    ∀ {hist : List String} {l : String}, l ∈ hist → l ∈ (filterLoop th jobs hist).2 := by
  induction jobs with
  | nil => intro hist l h; simpa [filterLoop_nil] using h
  | cons x rest ih =>
    intro hist l h
    rw [filterLoop_cons]
    split_ifs with h1 h2
    · exact ih h
    · exact ih h
    · exact ih (List.mem_cons_of_mem _ h)

lemma filterLoop_mem {th : Int} {jobs : List Job} :
    ∀ {hist : List String} {j : Job}, j ∈ (filterLoop th jobs hist).1 →
      j ∈ jobs ∧ th ≤ j.score.getD 0 ∧ j.link ∉ hist := by
  induction jobs with
  | nil => intro hist j h; simp [filterLoop_nil] at h
  | cons x rest ih =>
    intro hist j h
    rw [filterLoop_cons] at h
    split_ifs at h with h1 h2
    · obtain ⟨hm, hs, hh⟩ := ih h
      exact ⟨List.mem_cons_of_mem _ hm, hs, hh⟩
    · obtain ⟨hm, hs, hh⟩ := ih h
      exact ⟨List.mem_cons_of_mem _ hm, hs, hh⟩
    · rcases List.mem_cons.mp h with rfl | h
      · exact ⟨List.mem_cons_self _ _, by omega, h2⟩
      · obtain ⟨hm, hs, hh⟩ := ih h
        exact ⟨List.mem_cons_of_mem _ hm, hs,
          fun hmem => hh (List.mem_cons_of_mem _ hmem)⟩

lemma filterLoop_kept_link {th : Int} {jobs : List Job} :
    ∀ {hist : List String} {j : Job}, j ∈ (filterLoop th jobs hist).1 →
      j.link ∈ (filterLoop th jobs hist).2 := by
  induction jobs with
  | nil => intro hist j h; simp [filterLoop_nil] at h
  | cons x rest ih =>
    intro hist j h
    rw [filterLoop_cons] at h ⊢
    split_ifs at h ⊢ with h1 h2
    · exact ih h
    · exact ih h
    · rcases List.mem_cons.mp h with rfl | h
      · exact filterLoop_hist_mono (List.mem_cons_self _ _)
      · exact ih h

lemma filterLoop_score_link {th : Int} {jobs : List Job} :
    ∀ {hist : List String} {j : Job}, j ∈ jobs → th ≤ j.score.getD 0 →
      j.link ∈ (filterLoop th jobs hist).2 := by
  induction jobs with
  | nil => intro hist j h; simp at h
  | cons x rest ih =>
    intro hist j hm hs
    rw [filterLoop_cons]
    rcases List.mem_cons.mp hm with rfl | hm
    · split_ifs with h1 h2
      · omega
      · exact filterLoop_hist_mono h2
      · exact filterLoop_hist_mono (List.mem_cons_self _ _)
    · split_ifs with h1 h2
      · exact ih hm hs
      · exact ih hm hs
      · exact ih hm hs

lemma filterLoop_complete {th : Int} {jobs : List Job}
    (hnd : (jobs.map Job.link).Nodup) :
    ∀ {hist : List String} {j : Job}, j ∈ jobs → th ≤ j.score.getD 0 →
      j.link ∉ hist → j ∈ (filterLoop th jobs hist).1 := by
  induction jobs with
  | nil => intro hist j h; simp at h
  | cons x rest ih =>
    intro hist j hm hs hh
    rw [List.map_cons, List.nodup_cons] at hnd
    rw [filterLoop_cons]
    rcases List.mem_cons.mp hm with rfl | hm
    · split_ifs with h1
      · omega
      · exact List.mem_cons_self _ _
    · have hlink : j.link ≠ x.link := by
        intro h
        exact hnd.1 (h ▸ List.mem_map_of_mem Job.link hm)
      split_ifs with h1 h2
      · exact ih hnd.2 hm hs hh
      · exact ih hnd.2 hm hs hh
      · refine List.mem_cons_of_mem _ (ih hnd.2 hm hs ?_)
        intro hmem
        rcases List.mem_cons.mp hmem with h | h
        · exact hlink h
        · exact hh h

lemma filterLoop_empty_of_covered {th : Int} {jobs : List Job} :
    ∀ {hist : List String}, (∀ j ∈ jobs, th ≤ j.score.getD 0 → j.link ∈ hist) →
      (filterLoop th jobs hist).1 = [] := by
  induction jobs with
  | nil => intro hist _; simp [filterLoop_nil]
  | cons x rest ih =>
    intro hist h
    rw [filterLoop_cons]
    split_ifs with h1 h2
    · exact ih fun j hj hs => h j (List.mem_cons_of_mem _ hj) hs
    · exact ih fun j hj hs => h j (List.mem_cons_of_mem _ hj) hs
    · exact absurd (h x (List.mem_cons_self _ _) (by omega)) h2

lemma filterLoop_nodup {th : Int} {jobs : List Job} :
    ∀ {hist : List String}, ((filterLoop th jobs hist).1.map Job.link).Nodup := by
  induction jobs with
  | nil => intro hist; simp [filterLoop_nil]
  | cons x rest ih =>
    intro hist
    rw [filterLoop_cons]
    split_ifs with h1 h2
    · exact ih
    · exact ih
    · rw [List.map_cons, List.nodup_cons]
      refine ⟨?_, ih⟩
      intro hmem
      obtain ⟨j, hj, hjl⟩ := List.mem_map.mp hmem
      exact (filterLoop_mem hj).2.2 (hjl ▸ List.mem_cons_self _ _)

lemma filterLoop_find {th : Int} {jobs : List Job} :
    ∀ {hist : List String} {j : Job}, j ∈ (filterLoop th jobs hist).1 →
      jobs.find? (fun x => x.link == j.link && decide (th ≤ x.score.getD 0)) = some j := by
  induction jobs with
  | nil => intro hist j h; simp [filterLoop_nil] at h
  | cons x rest ih =>
    intro hist j h
    rw [filterLoop_cons] at h
    rw [List.find?_cons]
    split_ifs at h with h1 h2
    · have hp : (x.link == j.link && decide (th ≤ x.score.getD 0)) = false := by
        have : decide (th ≤ x.score.getD 0) = false := by
          simp only [decide_eq_false_iff_not]
          omega
        simp [this]
      rw [hp]
      exact ih h
    · have hne : x.link ≠ j.link := by
        intro he
        exact (filterLoop_mem h).2.2 (he ▸ h2)
      have hp : (x.link == j.link && decide (th ≤ x.score.getD 0)) = false := by
        simp [hne]
      rw [hp]
      exact ih h
    · rcases List.mem_cons.mp h with rfl | h
      · have hp : (j.link == j.link && decide (th ≤ j.score.getD 0)) = true := by
          simp
          omega
        rw [hp]
      · have hne : x.link ≠ j.link := by
          intro he
          have := (filterLoop_mem h).2.2
          exact this (he ▸ List.mem_cons_self _ _)
        have hp : (x.link == j.link && decide (th ≤ x.score.getD 0)) = false := by
          simp [hne]
        rw [hp]
        exact ih h

lemma dedupSplit_cons (hist : List String) (x : Job) (rest : List Job) :
    dedupSplit hist (x :: rest) =
      if isSeniorRole x.title then
        ((dedupSplit hist rest).1, (dedupSplit hist rest).2.1, x :: (dedupSplit hist rest).2.2)
      else if x.link ∈ hist then
        ((dedupSplit hist rest).1, x :: (dedupSplit hist rest).2.1, (dedupSplit hist rest).2.2)
      else (x :: (dedupSplit hist rest).1, (dedupSplit hist rest).2.1,
            (dedupSplit hist rest).2.2) := rfl

lemma dedupSplit_lengths (hist : List String) (jobs : List Job) :
    (dedupSplit hist jobs).1.length + (dedupSplit hist jobs).2.1.length
      + (dedupSplit hist jobs).2.2.length = jobs.length := by
  induction jobs with
  | nil => simp [dedupSplit]
  | cons x rest ih =>
    rw [dedupSplit_cons]
    split_ifs with h1 h2 <;> simp only [List.length_cons] <;> omega

lemma dedupSplit_mem (hist : List String) (jobs : List Job) (j : Job) :
    (j ∈ (dedupSplit hist jobs).2.2 ↔ j ∈ jobs ∧ isSeniorRole j.title = true)
    ∧ (j ∈ (dedupSplit hist jobs).2.1
        ↔ j ∈ jobs ∧ isSeniorRole j.title = false ∧ j.link ∈ hist)
    ∧ (j ∈ (dedupSplit hist jobs).1
        ↔ j ∈ jobs ∧ isSeniorRole j.title = false ∧ j.link ∉ hist) := by
  induction jobs with
  | nil => simp [dedupSplit]
  | cons x rest ih =>
    rw [dedupSplit_cons]
    by_cases hx : j = x
    · subst hx
      split_ifs with h1 h2
      · simp [ih.1, ih.2.1, ih.2.2, h1]
      · simp only [Bool.not_eq_true] at h1
        simp [ih.1, ih.2.1, ih.2.2, h1, h2]
      · simp only [Bool.not_eq_true] at h1
        simp [ih.1, ih.2.1, ih.2.2, h1, h2]
    · split_ifs with h1 h2 <;>
        simp [ih.1, ih.2.1, ih.2.2, List.mem_cons, hx]

/-- Claim C3: the pre-scoring split sends every job to exactly one of
excluded (senior-keyword title), duplicate (link already in history) or new;
the three classes add up to the whole input; and the phase leaves the
`JobFilter` state — in particular its history — unchanged. -/
theorem presplit_partition (f : JobFilter) (jobs : List Job) :
    ((f.deduplicateJobs jobs).1.1.length + (f.deduplicateJobs jobs).1.2.1.length
        + (f.deduplicateJobs jobs).1.2.2.length = jobs.length)
    ∧ (∀ j, j ∈ (f.deduplicateJobs jobs).1.2.2 ↔ j ∈ jobs ∧ isSeniorRole j.title = true)
    ∧ (∀ j, j ∈ (f.deduplicateJobs jobs).1.2.1
        ↔ j ∈ jobs ∧ isSeniorRole j.title = false ∧ j.link ∈ f.history)
    ∧ (∀ j, j ∈ (f.deduplicateJobs jobs).1.1
        ↔ j ∈ jobs ∧ isSeniorRole j.title = false ∧ j.link ∉ f.history)
    ∧ (f.deduplicateJobs jobs).2 = f := by
  refine ⟨dedupSplit_lengths f.history jobs,
    fun j => (dedupSplit_mem f.history jobs j).1,
    fun j => (dedupSplit_mem f.history jobs j).2.1,
    fun j => (dedupSplit_mem f.history jobs j).2.2, rfl⟩

/-- Claim C2: the post-scoring filter keeps a job iff its score is at least
the threshold (ties kept) and its link is not in history; each kept job's
link lands in the updated history; and the phase persists history exactly
once when anything was kept and not at all otherwise. -/
theorem filter_keeps_iff (f : JobFilter) (jobs : List Job)
    (hnd : (jobs.map Job.link).Nodup) :
    (∀ j, j ∈ (f.filterJobs jobs).1
        ↔ j ∈ jobs ∧ f.threshold ≤ j.score.getD 0 ∧ j.link ∉ f.history)
    ∧ (∀ j ∈ (f.filterJobs jobs).1, j.link ∈ (f.filterJobs jobs).2.1.history)
    ∧ ((f.filterJobs jobs).1 = [] → (f.filterJobs jobs).2.2 = 0)
    ∧ ((f.filterJobs jobs).1 ≠ [] → (f.filterJobs jobs).2.2 = 1) := by
  refine ⟨?_, ?_, ?_, ?_⟩
  · intro j
    exact ⟨fun h => filterLoop_mem h, fun ⟨hm, hs, hh⟩ => filterLoop_complete hnd hm hs hh⟩
  · intro j h
    exact filterLoop_kept_link h
  · intro h
    simp only [JobFilter.filterJobs] at h ⊢
    simp [h]
  · intro h
    simp only [JobFilter.filterJobs] at h ⊢
    simp [List.isEmpty_iff, h]

/-- Claim C2 witness: with history `{sent}` and threshold 50, a job scoring
exactly 50 on a fresh link is kept, its link enters the history, and one
persist happens. -/
theorem filter_keeps_iff_witness :
    (⟨"ML Engineer", "Acme", "Berlin", "l-a", "", some 50⟩ : Job)
        ∈ ((⟨["sent"], 50⟩ : JobFilter).filterJobs
            [⟨"ML Engineer", "Acme", "Berlin", "l-a", "", some 50⟩,
             ⟨"Dev", "B", "C", "l-b", "", some 49⟩,
             ⟨"Ops", "D", "E", "sent", "", some 80⟩]).1
    ∧ "l-a" ∈ ((⟨["sent"], 50⟩ : JobFilter).filterJobs
            [⟨"ML Engineer", "Acme", "Berlin", "l-a", "", some 50⟩,
             ⟨"Dev", "B", "C", "l-b", "", some 49⟩,
             ⟨"Ops", "D", "E", "sent", "", some 80⟩]).2.1.history
    ∧ ((⟨["sent"], 50⟩ : JobFilter).filterJobs
            [⟨"ML Engineer", "Acme", "Berlin", "l-a", "", some 50⟩,
             ⟨"Dev", "B", "C", "l-b", "", some 49⟩,
             ⟨"Ops", "D", "E", "sent", "", some 80⟩]).2.2 = 1 := by
  have h := filter_keeps_iff ⟨["sent"], 50⟩
    [⟨"ML Engineer", "Acme", "Berlin", "l-a", "", some 50⟩,
     ⟨"Dev", "B", "C", "l-b", "", some 49⟩,
     ⟨"Ops", "D", "E", "sent", "", some 80⟩] (by decide)
  have hmem := (h.1 ⟨"ML Engineer", "Acme", "Berlin", "l-a", "", some 50⟩).mpr
    ⟨by decide, by decide, by decide⟩
  exact ⟨hmem, h.2.1 _ hmem, h.2.2.2 (List.ne_nil_of_mem hmem)⟩

/-- Claim C7: after the post-scoring filter runs, every input job at or
above threshold whose link was fresh has its link recorded in history, and
a second run of the filter on the same job list returns nothing. -/
theorem post_filter_monotone_idempotent (f : JobFilter) (jobs : List Job) :
    (∀ j, j ∈ jobs → f.threshold ≤ j.score.getD 0 → j.link ∉ f.history →
        j.link ∈ (f.filterJobs jobs).2.1.history)
    ∧ (((f.filterJobs jobs).2.1).filterJobs jobs).1 = [] := by
  constructor
  · intro j hm hs _
    exact filterLoop_score_link hm hs
  · exact filterLoop_empty_of_covered fun j hj hs => filterLoop_score_link hj hs

/-- Claim C7 witness: a fresh 70-scoring job's link is in history after the
run, and re-filtering the same list yields nothing. -/
theorem post_filter_monotone_idempotent_witness :
    "l-x" ∈ ((⟨["old"], 50⟩ : JobFilter).filterJobs
        [⟨"Dev", "A", "B", "l-x", "", some 70⟩]).2.1.history
    ∧ (((⟨["old"], 50⟩ : JobFilter).filterJobs
          [⟨"Dev", "A", "B", "l-x", "", some 70⟩]).2.1.filterJobs
            [⟨"Dev", "A", "B", "l-x", "", some 70⟩]).1 = [] := by
  have h := post_filter_monotone_idempotent ⟨["old"], 50⟩
    [⟨"Dev", "A", "B", "l-x", "", some 70⟩]
  exact ⟨h.1 ⟨"Dev", "A", "B", "l-x", "", some 70⟩ (by decide) (by decide) (by decide), h.2⟩

/-- Claim C10: one filter call emits at most one job per link — each kept
job is the first input job with its link at or above threshold (later
same-link jobs are suppressed by the immediate in-memory history add). -/
theorem filter_single_per_link (f : JobFilter) (jobs : List Job) :
    (((f.filterJobs jobs).1.map Job.link).Nodup)
    ∧ ∀ j ∈ (f.filterJobs jobs).1,
        jobs.find? (fun x => x.link == j.link && decide (f.threshold ≤ x.score.getD 0))
          = some j := by
  exact ⟨filterLoop_nodup, fun j h => filterLoop_find h⟩

/-- Claim C10 witness: two above-threshold jobs share a link; the kept one
is found as the first eligible occurrence. -/
theorem filter_single_per_link_witness :
    ([⟨"Dev", "A", "B", "l-a", "", some 60⟩,
      ⟨"Dev2", "C", "D", "l-a", "", some 70⟩] : List Job).find?
        (fun x => x.link == (⟨"Dev", "A", "B", "l-a", "", some 60⟩ : Job).link
          && decide ((50 : Int) ≤ x.score.getD 0))
      = some ⟨"Dev", "A", "B", "l-a", "", some 60⟩ := by
  exact (filter_single_per_link ⟨[], 50⟩
    [⟨"Dev", "A", "B", "l-a", "", some 60⟩, ⟨"Dev2", "C", "D", "l-a", "", some 70⟩]).2
    ⟨"Dev", "A", "B", "l-a", "", some 60⟩ (by decide)

/-! ### Lemmas about the extractor dedup -/

lemma dedupSeen_cons (seen : List String) (x : Job) (rest : List Job) :
    dedupSeen seen (x :: rest) =
      if x.link ∈ seen then dedupSeen seen rest
      else x :: dedupSeen (x.link :: seen) rest := rfl

lemma dedupSeen_sublist (seen : List String) (l : List Job) :
    (dedupSeen seen l).Sublist l := by
  induction l generalizing seen with
  | nil => exact List.Sublist.refl _
  | cons x rest ih =>
    rw [dedupSeen_cons]
    split_ifs with h
    · exact (ih seen).trans (List.sublist_cons_self _ _)
    · exact (ih (x.link :: seen)).cons₂ x

lemma dedupSeen_mem {l : List Job} :
    ∀ {seen : List String} {j : Job}, j ∈ dedupSeen seen l →
      j.link ∉ seen ∧ l.find? (fun c => c.link == j.link) = some j := by
  induction l with
  | nil => intro seen j h; simp [dedupSeen] at h
  | cons x rest ih =>
    intro seen j h
    rw [dedupSeen_cons] at h
    rw [List.find?_cons]
    split_ifs at h with hx
    · obtain ⟨hns, hfind⟩ := ih h
      have hne : x.link ≠ j.link := fun he => hns (he ▸ hx)
      have : (x.link == j.link) = false := by simp [hne]
      rw [this]
      exact ⟨hns, hfind⟩
    · rcases List.mem_cons.mp h with rfl | h
      · have : (j.link == j.link) = true := by simp
        rw [this]
        exact ⟨hx, rfl⟩
      · obtain ⟨hns, hfind⟩ := ih h
        have hne : x.link ≠ j.link := by
          intro he
          exact hns (he ▸ List.mem_cons_self _ _)
        have hns' : j.link ∉ seen := fun hmem => hns (List.mem_cons_of_mem _ hmem)
        have : (x.link == j.link) = false := by simp [hne]
        rw [this]
        exact ⟨hns', hfind⟩

lemma dedupSeen_nodup (seen : List String) (l : List Job) :
    ((dedupSeen seen l).map Job.link).Nodup := by
  induction l generalizing seen with
  | nil => simp [dedupSeen]
  | cons x rest ih =>
    rw [dedupSeen_cons]
    split_ifs with h
    · exact ih seen
    · rw [List.map_cons, List.nodup_cons]
      refine ⟨?_, ih (x.link :: seen)⟩
      intro hmem
      obtain ⟨j, hj, hjl⟩ := List.mem_map.mp hmem
      exact (dedupSeen_mem hj).1 (hjl ▸ List.mem_cons_self _ _)

lemma dedupSeen_eq_self {l : List Job} (hnd : (l.map Job.link).Nodup) :
    ∀ {seen : List String}, (∀ j ∈ l, j.link ∉ seen) → dedupSeen seen l = l := by
  induction l with
  | nil => intro seen _; rfl
  | cons x rest ih =>
    intro seen h
    rw [List.map_cons, List.nodup_cons] at hnd
    rw [dedupSeen_cons]
    rw [if_neg (h x (List.mem_cons_self _ _))]
    congr 1
    refine ih hnd.2 ?_
    intro j hj hmem
    rcases List.mem_cons.mp hmem with he | hmem
    · exact hnd.1 (he ▸ List.mem_map_of_mem Job.link hj)
    · exact h j (List.mem_cons_of_mem _ hj) hmem

lemma parseTableFormatAux_eq (ecl : String → String → String × String)
    (ms : List (String × String)) :
    ∀ seen, parseTableFormatAux ecl ms seen = dedupSeen seen (tableCandidates ecl ms) := by
  induction ms with
  | nil => intro seen; rfl
  | cons m rest ih =>
    obtain ⟨url, rt⟩ := m
    intro seen
    show (if (⟨trimL rt.toList⟩ : String) = "" ∨ cleanLinkedinUrl url ∈ seen then
            parseTableFormatAux ecl rest seen
          else mkTableJob ecl url rt :: parseTableFormatAux ecl rest (cleanLinkedinUrl url :: seen))
        = dedupSeen seen (tableCandidates ecl ((url, rt) :: rest))
    have hcand : tableCandidates ecl ((url, rt) :: rest)
        = (if (⟨trimL rt.toList⟩ : String) = "" then none else some (mkTableJob ecl url rt)).toList
            ++ tableCandidates ecl rest := by
      unfold tableCandidates
      rw [List.filterMap_cons]
      split_ifs <;> simp
    by_cases ht : (⟨trimL rt.toList⟩ : String) = ""
    · rw [hcand, if_pos ht]
      simp only [Option.toList_none, List.nil_append]
      rw [if_pos (Or.inl ht)]
      exact ih seen
    · rw [hcand, if_neg ht]
      simp only [Option.toList_some, List.singleton_append]
      rw [dedupSeen_cons]
      have hlink : (mkTableJob ecl url rt).link = cleanLinkedinUrl url := rfl
      rw [hlink]
      by_cases hs : cleanLinkedinUrl url ∈ seen
      · rw [if_pos (Or.inr hs), if_pos hs]
        exact ih seen
      · rw [if_neg (by tauto), if_neg hs]
        rw [ih (cleanLinkedinUrl url :: seen)]

/-- Claim C4: a single `parse_html` call emits at most one job per canonical
link (links of the output are pairwise distinct), the output is a
subsequence of the winning strategy's candidate stream (document order is
preserved), and each emitted job is exactly the first candidate carrying
its canonical link — with that first occurrence's title, company and
location. -/
theorem extractor_first_occurrence_dedup (ecl : String → String → String × String)
    (ms : List (String × String)) (cards : List (Option Job)) :
    ((parseHtml ecl ms cards).map Job.link).Nodup
    ∧ (parseHtml ecl ms cards).Sublist (htmlCandidates ecl ms cards)
    ∧ ∀ j ∈ parseHtml ecl ms cards,
        (htmlCandidates ecl ms cards).find? (fun c => c.link == j.link) = some j := by
  have hph : parseHtml ecl ms cards
      = if (dedupSeen [] (parseTableFormat ecl ms)).isEmpty then
          dedupSeen ((dedupSeen [] (parseTableFormat ecl ms)).map Job.link)
            (cards.filterMap id)
        else dedupSeen [] (parseTableFormat ecl ms) := rfl
  by_cases hempty : (dedupSeen [] (parseTableFormat ecl ms)).isEmpty
  · have hjobs : dedupSeen [] (parseTableFormat ecl ms) = [] := List.isEmpty_iff.mp hempty
    have hout : parseHtml ecl ms cards = dedupSeen [] (cards.filterMap id) := by
      rw [hph, if_pos hempty, hjobs, List.map_nil]
    have hcand : htmlCandidates ecl ms cards = cards.filterMap id := by
      unfold htmlCandidates
      rw [if_pos hempty]
    rw [hout, hcand]
    exact ⟨dedupSeen_nodup _ _, dedupSeen_sublist _ _, fun j hj => (dedupSeen_mem hj).2⟩
  · have htab : parseTableFormat ecl ms = dedupSeen [] (tableCandidates ecl ms) :=
      parseTableFormatAux_eq ecl ms []
    have hinner : dedupSeen [] (parseTableFormat ecl ms)
        = dedupSeen [] (tableCandidates ecl ms) := by
      rw [htab]
      exact dedupSeen_eq_self (dedupSeen_nodup _ _) (by simp)
    have hout : parseHtml ecl ms cards = dedupSeen [] (tableCandidates ecl ms) := by
      rw [hph, if_neg hempty, hinner]
    have hcand : htmlCandidates ecl ms cards = tableCandidates ecl ms := by
      unfold htmlCandidates
      rw [if_neg hempty]
    rw [hout, hcand]
    exact ⟨dedupSeen_nodup _ _, dedupSeen_sublist _ _, fun j hj => (dedupSeen_mem hj).2⟩

/-- Claim C4 witness: the same canonical link appears under two tracking
urls; the single emitted job is the first candidate, with the first
occurrence's title and company/location. -/
theorem extractor_first_occurrence_dedup_witness :
    (htmlCandidates (fun _ _ => ("Acme", "Berlin"))
        [("https://www.linkedin.com/comm/jobs/view/11?trk=a", "Engineer"),
         ("https://www.linkedin.com/comm/jobs/view/11?trk=b", "Other")] []).find?
      (fun c => c.link
        == (⟨"Engineer", "Acme", "Berlin", "https://www.linkedin.com/comm/jobs/view/11",
             "", none⟩ : Job).link)
    = some ⟨"Engineer", "Acme", "Berlin", "https://www.linkedin.com/comm/jobs/view/11",
        "", none⟩ := by
  exact (extractor_first_occurrence_dedup (fun _ _ => ("Acme", "Berlin"))
      [("https://www.linkedin.com/comm/jobs/view/11?trk=a", "Engineer"),
       ("https://www.linkedin.com/comm/jobs/view/11?trk=b", "Other")] []).2.2
    ⟨"Engineer", "Acme", "Berlin", "https://www.linkedin.com/comm/jobs/view/11", "", none⟩
    (by decide)

/-! ### Claims about the two model-response parsers -/

lemma validateEntry_obj (o : List (String × JVal)) :
    validateEntry (JVal.obj o)
      = match assocFind o "item" with
        | some it =>
          some { category := jsonGet o "category" (JVal.str "other"), item := it,
                 level := jsonGet o "level" (JVal.str ""),
                 priority := jsonGet o "priority" (JVal.str "must") }
        | none => none := rfl

lemma enhancedMatchJob_ok (pj : String → Option JVal) (lenE resp : String) :
    enhancedMatchJob pj lenE (Except.ok resp)
      = match generateSummary (enhancedParseResponse pj resp) with
        | some s => (intTrunc ((enhancedParseResponse pj resp).match_score * 100), s,
                     enhancedParseResponse pj resp)
        | none => (0, "Enhanced matching error: " ++ lenE, zeroReport) := rfl

/-- Claim C6: stage-A response handling — the fence wrapper is stripped
before parsing; a non-JSON or non-array response yields the empty
requirement list; array entries without `item` are dropped silently while
kept entries fill `category` with "other" and `priority` with "must"; and a
raised model call yields exactly one synthesized Requirement of category
"role" with the job title as item and priority "must" (the embedding is a
total function: extraction never raises). -/
theorem stage_a_response_handling (pj : String → Option JVal) (r : String)
    (t : Option String) :
    (pj (stripLLMResponse r) = none → extractorParseResponse pj r = [])
    ∧ (∀ v, pj (stripLLMResponse r) = some v → (∀ items, v ≠ JVal.arr items) →
        extractorParseResponse pj r = [])
    ∧ (∀ items, pj (stripLLMResponse r) = some (JVal.arr items) →
        extractorParseResponse pj r = items.filterMap validateEntry)
    ∧ (∀ o, assocFind o "item" = none → validateEntry (JVal.obj o) = none)
    ∧ (∀ o it, assocFind o "item" = some it →
        validateEntry (JVal.obj o)
          = some { category := jsonGet o "category" (JVal.str "other"), item := it,
                   level := jsonGet o "level" (JVal.str ""),
                   priority := jsonGet o "priority" (JVal.str "must") })
    ∧ (∀ e, extractRequirements pj (Except.error e) t
        = [{ category := JVal.str "role", item := JVal.str (t.getD "Unknown"),
             level := JVal.str "", priority := JVal.str "must" }]) := by
  refine ⟨?_, ?_, ?_, ?_, ?_, ?_⟩
  · intro h
    unfold extractorParseResponse
    rw [h]
  · intro v hv hne
    unfold extractorParseResponse
    rw [hv]
    cases v with
    | null => rfl
    | bool b => rfl
    | num q => rfl
    | str s => rfl
    | arr items => exact absurd rfl (hne items)
    | obj o => rfl
  · intro items h
    unfold extractorParseResponse
    rw [h]
  · intro o h
    rw [validateEntry_obj, h]
  · intro o it h
    rw [validateEntry_obj, h]
  · intro e
    rfl

/-- Claim C6 witness: an array with one valid entry (missing category and
priority) and one junk entry yields exactly the normalized entry; a raised
call yields the single title-derived requirement. -/
theorem stage_a_response_handling_witness :
    extractorParseResponse
        (fun s => if s = "stage-a-reply" then
          some (JVal.arr [JVal.obj [("item", JVal.str "Python")], JVal.str "junk"]) else none)
        "stage-a-reply"
      = [{ category := JVal.str "other", item := JVal.str "Python",
           level := JVal.str "", priority := JVal.str "must" }]
    ∧ extractRequirements
        (fun s => if s = "stage-a-reply" then
          some (JVal.arr [JVal.obj [("item", JVal.str "Python")], JVal.str "junk"]) else none)
        (Except.error "boom") (some "DevOps Engineer")
      = [{ category := JVal.str "role", item := JVal.str "DevOps Engineer",
           level := JVal.str "", priority := JVal.str "must" }] := by
  constructor
  · rw [(stage_a_response_handling
        (fun s => if s = "stage-a-reply" then
          some (JVal.arr [JVal.obj [("item", JVal.str "Python")], JVal.str "junk"]) else none)
        "stage-a-reply" none).2.2.1
        [JVal.obj [("item", JVal.str "Python")], JVal.str "junk"] (by rfl)]
    rfl
  · exact (stage_a_response_handling
      (fun s => if s = "stage-a-reply" then
        some (JVal.arr [JVal.obj [("item", JVal.str "Python")], JVal.str "junk"]) else none)
      "r" (some "DevOps Engineer")).2.2.2.2.2 "boom"

/-- Claim C8: stage-B failure policy — a raised model call yields score 0,
the zero report with all four evidence lists empty, and a summary naming the
error; a response the JSON decoder rejects equally yields score 0 and the
zero report, with the fixed summary "No match info".  The embedding is a
total function: no exception escapes the per-job evaluation, so a batch
iterating it can never be aborted by one job. -/
theorem enhanced_failure_policy (pj : String → Option JVal) (lenE msg resp : String) :
    (enhancedMatchJob pj lenE (Except.error msg)
        = (0, "Enhanced matching error: " ++ msg, zeroReport))
    ∧ (pj (stripLLMResponse resp) = none →
        enhancedMatchJob pj lenE (Except.ok resp) = (0, "No match info", zeroReport))
    ∧ zeroReport.match_score = 0 ∧ zeroReport.strong_matches = JVal.arr []
    ∧ zeroReport.partMatches = JVal.arr [] ∧ zeroReport.gaps = JVal.arr []
    ∧ zeroReport.cv_suggestions = JVal.arr [] := by
  refine ⟨rfl, ?_, rfl, rfl, rfl, rfl, rfl⟩
  intro h
  have hr : enhancedParseResponse pj resp = zeroReport := by
    unfold enhancedParseResponse
    rw [h]
  have hgs : generateSummary zeroReport = some "No match info" := rfl
  have hstep : enhancedMatchJob pj lenE (Except.ok resp)
      = (intTrunc (zeroReport.match_score * 100), "No match info", zeroReport) := by
    rw [enhancedMatchJob_ok, hr, hgs]
  rw [hstep]
  have h0 : intTrunc (zeroReport.match_score * 100) = 0 := by
    show intTrunc ((0 : ℚ) * 100) = 0
    rw [zero_mul]
    unfold intTrunc
    rw [if_pos le_rfl]
    exact Int.floor_zero
  rw [h0]

/-- Claim C8 witness: a decoder that rejects everything produces the zero
report triple. -/
theorem enhanced_failure_policy_witness :
    enhancedMatchJob (fun _ => none) "len-e" (Except.ok "not json")
      = (0, "No match info", zeroReport) :=
  (enhanced_failure_policy (fun _ => none) "len-e" "m" "not json").2.1 rfl

/-- Claim C9: the legacy matcher's score is always within [0, 100] — a
well-formed response with an integer score is clamped to the nearest bound
(`max 0 (min 100 n)`), and a response the decoder rejects yields the fixed
zero-score fallback; the error path of `match_job` also scores 0. -/
theorem legacy_score_bounded (pj : String → Option JVal) (call : Except String String) :
    (0 ≤ (legacyMatchJob pj call).1 ∧ (legacyMatchJob pj call).1 ≤ 100)
    ∧ (∀ resp o sv rv n, call = Except.ok resp →
        pj (stripLegacyResponse resp) = some (JVal.obj o) →
        assocFind o "score" = some sv → assocFind o "reasons" = some rv →
        jvalToInt sv = some n →
        (legacyMatchJob pj call).1 = max 0 (min 100 n))
    ∧ (∀ resp, call = Except.ok resp → pj (stripLegacyResponse resp) = none →
        legacyMatchJob pj call = (0, JVal.str "Failed to parse LLM response")) := by
  refine ⟨?_, ?_, ?_⟩
  · cases call with
    | error msg => exact ⟨le_rfl, by show (0 : Int) ≤ 100; norm_num⟩
    | ok resp =>
      show 0 ≤ (legacyParseResponse pj resp).1 ∧ (legacyParseResponse pj resp).1 ≤ 100
      unfold legacyParseResponse
      cases pj (stripLegacyResponse resp) with
      | none => exact ⟨le_rfl, by show (0 : Int) ≤ 100; norm_num⟩
      | some v =>
        cases v with
        | null => exact ⟨le_rfl, by show (0 : Int) ≤ 100; norm_num⟩
        | bool b => exact ⟨le_rfl, by show (0 : Int) ≤ 100; norm_num⟩
        | num q => exact ⟨le_rfl, by show (0 : Int) ≤ 100; norm_num⟩
        | str s => exact ⟨le_rfl, by show (0 : Int) ≤ 100; norm_num⟩
        | arr items => exact ⟨le_rfl, by show (0 : Int) ≤ 100; norm_num⟩
        | obj o =>
          show 0 ≤ (legacyFromObj o).1 ∧ (legacyFromObj o).1 ≤ 100
          unfold legacyFromObj
          cases assocFind o "score" with
          | none =>
            cases assocFind o "reasons" with
            | none => exact ⟨le_rfl, by show (0 : Int) ≤ 100; norm_num⟩
            | some rv => exact ⟨le_rfl, by show (0 : Int) ≤ 100; norm_num⟩
          | some sv =>
            cases assocFind o "reasons" with
            | none => exact ⟨le_rfl, by show (0 : Int) ≤ 100; norm_num⟩
            | some rv =>
              show 0 ≤ (legacyScored sv rv).1 ∧ (legacyScored sv rv).1 ≤ 100
              unfold legacyScored
              cases jvalToInt sv with
              | none => exact ⟨le_rfl, by show (0 : Int) ≤ 100; norm_num⟩
              | some n =>
                show 0 ≤ (if 0 ≤ n ∧ n ≤ 100 then n else max 0 (min 100 n))
                    ∧ (if 0 ≤ n ∧ n ≤ 100 then n else max 0 (min 100 n)) ≤ 100
                split_ifs with h
                · exact ⟨h.1, h.2⟩
                · exact ⟨le_max_left _ _, max_le (by norm_num) (min_le_left _ _)⟩
  · intro resp o sv rv n hc hpj hsv hrv hn
    subst hc
    show (legacyParseResponse pj resp).1 = max 0 (min 100 n)
    unfold legacyParseResponse
    rw [hpj]
    show (legacyFromObj o).1 = max 0 (min 100 n)
    unfold legacyFromObj
    rw [hsv, hrv]
    show (legacyScored sv rv).1 = max 0 (min 100 n)
    unfold legacyScored
    rw [hn]
    show (if 0 ≤ n ∧ n ≤ 100 then n else max 0 (min 100 n)) = max 0 (min 100 n)
    split_ifs with h
    · rw [min_eq_right h.2, max_eq_right h.1]
    · rfl
  · intro resp hc hpj
    subst hc
    show legacyParseResponse pj resp = (0, JVal.str "Failed to parse LLM response")
    unfold legacyParseResponse
    rw [hpj]

/-- Claim C9 witness: an out-of-range integer score (150) is clamped to the
bound 100. -/
theorem legacy_score_bounded_witness :
    (legacyMatchJob
        (fun s => if s = "legacy-reply" then
          some (JVal.obj [("score", JVal.num 150), ("reasons", JVal.str "great")]) else none)
        (Except.ok "legacy-reply")).1 = 100 := by
  rw [(legacy_score_bounded
      (fun s => if s = "legacy-reply" then
        some (JVal.obj [("score", JVal.num 150), ("reasons", JVal.str "great")]) else none)
      (Except.ok "legacy-reply")).2.1 "legacy-reply"
      [("score", JVal.num 150), ("reasons", JVal.str "great")]
      (JVal.num 150) (JVal.str "great") 150 rfl (by rfl) (by rfl) (by rfl) ?_]
  · decide
  · show jvalToInt (JVal.num 150) = some 150
    show some (intTrunc 150) = some 150
    have h150 : intTrunc (150 : ℚ) = 150 := by
      unfold intTrunc
      rw [if_pos (by norm_num)]
      decide
    rw [h150]

/-- Claim C1: the enhanced matcher does NOT clamp or reject an out-of-range
`match_score` — a parsed report with `match_score = 1.5` propagates as the
legacy score `int(1.5 * 100) = 150`, outside the legacy range [0, 100]
(contrast `legacy_score_bounded`: the legacy parser clamps). -/
theorem enhanced_score_out_of_range :
    (enhancedMatchJob
        (fun s => if s = "stage-b-reply" then
          some (JVal.obj [("match_score", JVal.num (3 / 2))]) else none)
        "len-e" (Except.ok "stage-b-reply")).1 = 150
    ∧ ¬ (enhancedMatchJob
        (fun s => if s = "stage-b-reply" then
          some (JVal.obj [("match_score", JVal.num (3 / 2))]) else none)
        "len-e" (Except.ok "stage-b-reply")).1 ≤ 100 := by
  have hparse : enhancedParseResponse
      (fun s => if s = "stage-b-reply" then
        some (JVal.obj [("match_score", JVal.num (3 / 2))]) else none) "stage-b-reply"
      = { match_score := 3 / 2, strong_matches := JVal.arr [], partMatches := JVal.arr [],
          gaps := JVal.arr [], cv_suggestions := JVal.arr [] } := by
    rfl
  have hstep : (enhancedMatchJob
      (fun s => if s = "stage-b-reply" then
        some (JVal.obj [("match_score", JVal.num (3 / 2))]) else none)
      "len-e" (Except.ok "stage-b-reply")).1 = intTrunc ((3 / 2 : ℚ) * 100) := by
    rw [enhancedMatchJob_ok, hparse]
    rfl
  have hval : intTrunc ((3 / 2 : ℚ) * 100) = 150 := by
    have he : ((3 : ℚ) / 2) * 100 = 150 := by norm_num
    unfold intTrunc
    rw [he, if_pos (by norm_num)]
    norm_num
  rw [hstep, hval]
  omega
